import Mathlib

/-!
Shallow embedding of the block-streaming DSP pipeline of RustAudioPlayground
(src/dsp.rs, src/dsp_modules/gain_control/mod.rs, src/audio_app.rs), together
with theorems settling the spec's testable properties.

Modelling conventions:
* `i16` samples become `ℤ`; the Rust type constraint `-32768 ≤ s ≤ 32767` is
  carried as an explicit hypothesis where it matters.
* `f32` arithmetic in the gain path and the driver's timing arithmetic are
  idealised over `ℚ` (exact arithmetic); the `as i16` cast of an in-range
  `f32` truncates toward zero, modelled by `Int.div` of the rational's
  numerator by its denominator.
* The shared atomic flags `is_playing` and `bypass` are read afresh by each
  operation in the Rust code, so the embedding passes their current values as
  arguments to each call instead of storing them in the state.
* The upstream decoded source is a pull-based sample sequence, modelled as the
  list of its remaining samples.
-/

namespace RustAudio

/-- `ParamValue` from src/audio_app.rs lines 11-13: a parameter value is a
number (`f32`, idealised as `ℚ`) or a boolean. -/
inductive ParamValue where
  | Number (v : ℚ)
  | Boolean (b : Bool)
deriving Repr, DecidableEq

/-- State of `BlockProcessor` (src/dsp.rs lines 159-169): remaining upstream
samples, the current block, the position inside it, the processed-samples
counter, and the configured block size. The atomic flags and the installed
`process_fn` live outside the struct in this embedding (flags are passed per
call; `process_fn`, already closed over the parameter snapshot, is the
function argument `f`). -/
structure BPState where
  input : List ℤ
  block : List ℤ
  block_pos : ℕ
  samples_processed : ℕ
  block_size : ℕ
deriving Repr, DecidableEq

/-- `BlockProcessor::new` (src/dsp.rs lines 175-195): empty current block,
position 0, zero samples processed. -/
def bpNew (input : List ℤ) (block_size : ℕ) : BPState :=
  ⟨input, [], 0, 0, block_size⟩

/-- `BlockProcessor::process_buffer` (src/dsp.rs lines 197-209): when `bypass`
is set, skip processing; otherwise run `process_fn` on the current block in
place and add the block length to `samples_processed`. The second component
is the trace of inputs handed to `process_fn` by this call (`[]` or one
block), used to state partitioning claims. -/
def process_buffer (f : List ℤ → List ℤ) (bypass : Bool) (s : BPState) :
    BPState × List (List ℤ) :=
  if bypass then (s, [])
  else
    let processed := f s.block
    ({ s with
         block := processed,
         samples_processed := s.samples_processed + processed.length },
     [s.block])

/-- The tail of `BlockProcessor::next` (src/dsp.rs lines 243-249): if the
position is inside the current block, yield the sample there and advance;
otherwise yield nothing. -/
def emitCurrent (s : BPState) (log : List (List ℤ)) :
    Option ℤ × BPState × List (List ℤ) :=
  if h : s.block_pos < s.block.length then
    (some (s.block.get ⟨s.block_pos, h⟩),
     { s with block_pos := s.block_pos + 1 }, log)
  else
    (none, s, log)

/-- `BlockProcessor::next` (src/dsp.rs lines 218-251). Reads the current
values of the shared flags `is_playing` and `bypass`. If `is_playing` is
false, yield nothing. If the current block is exhausted, pull up to
`block_size` samples from the upstream source; if none arrive, yield nothing
(end of stream); otherwise install the new block, run `process_buffer`, and
reset the position. Finally yield the sample at the current position if any.
Returns the yielded sample, the successor state, and the trace of blocks
handed to `process_fn` during this call. -/
def next (f : List ℤ → List ℤ) (playing bypass : Bool) (s : BPState) :
    Option ℤ × BPState × List (List ℤ) :=
  if playing then
    if s.block_pos ≥ s.block.length then
      let new_block := s.input.take s.block_size
      let s1 : BPState := { s with input := s.input.drop s.block_size }
      if new_block.isEmpty then
        (none, s1, [])
      else
        let pr := process_buffer f bypass { s1 with block := new_block, block_pos := 0 }
        emitCurrent pr.1 pr.2
    else
      emitCurrent s []
  else
    (none, s, [])

/-- Driving loop of the consumer: repeatedly call `next` with the given
(constant) flag values until it yields nothing or fuel runs out, collecting
the yielded samples and the concatenated `process_fn` invocation trace. -/
def run (f : List ℤ → List ℤ) (playing bypass : Bool) :
    ℕ → BPState → List ℤ × List (List ℤ)
  | 0, _ => ([], [])
  | fuel + 1, s =>
    match next f playing bypass s with
    | (none, _, log) => ([], log)
    | (some x, s', log) =>
      let rest := run f playing bypass fuel s'
      (x :: rest.1, log ++ rest.2)

/-- The consecutive chunks of a list, each of length `bs` except possibly a
shorter final one; empty when `bs = 0` (a `block_size` of 0 pulls no samples,
so the streamer performs no invocation at all). -/
def chunksOf (bs : ℕ) (l : List ℤ) : List (List ℤ) :=
  if h : bs = 0 ∨ l = [] then []
  else l.take bs :: chunksOf bs (l.drop bs)
termination_by l.length
decreasing_by
  push_neg at h
  simp only [List.length_drop]
  have h1 : 0 < l.length := List.length_pos.mpr h.2
  omega

/-- The enumerated set of configurable block sizes
(src/audio_app.rs line 132: `vec![1024, 2048, 4096, 8192, 16384]`). -/
def validBlockSizes : List ℕ := [1024, 2048, 4096, 8192, 16384]

/-- The sample rate hardcoded by `DspProcessor::process`
(src/dsp.rs line 95: `let sample_rate = 48000.0;`). -/
def dspSampleRate : ℚ := 48000

/-- Nominal block duration in seconds computed by `DspProcessor::process`
(src/dsp.rs line 97: `block_size as f32 / sample_rate`). -/
def blockDuration (block_size : ℕ) : ℚ := (block_size : ℚ) / dspSampleRate

/-- Mutable state of the playback-driver loop in `DspProcessor::process`
(src/dsp.rs lines 106-107 and the shared `cpu_usage` cell): accumulated
nominal elapsed time, accumulated processing time, and the last value
published to the CPU usage cell. -/
structure DriverState where
  total_elapsed : ℚ
  processing_time : ℚ
  cpu_usage : ℚ
deriving Repr, DecidableEq

/-- One iteration of the playback-driver loop (src/dsp.rs lines 109-141),
timing idealised: `source_rate` is the sample rate the decoded source
reports (available to the processor but not consulted by the pacing math,
which uses the hardcoded `dspSampleRate`); `bypass` is the flag value read
this iteration; `work` is the wall-clock cost of the `process_fn` invocation
path, accrued only when it actually runs (`if !bypass { ... }`). The
iteration then adds the nominal block duration to `total_elapsed` and, when
`total_elapsed > 0`, publishes `(processing_time / total_elapsed) * 100`. -/
def processStep (block_size : ℕ) (_source_rate : ℚ) (bypass : Bool) (work : ℚ)
    (st : DriverState) : DriverState :=
  let pt := st.processing_time + (if bypass then 0 else work)
  let te := st.total_elapsed + blockDuration block_size
  let cu := if 0 < te then (pt / te) * 100 else st.cpu_usage
  ⟨te, pt, cu⟩

/-- The playback-driver loop run over a finite schedule of iterations, the
`i`-th carrying the `bypass` value read and the processing cost incurred at
iteration `i`. -/
def processRun (block_size : ℕ) (source_rate : ℚ) :
    List (Bool × ℚ) → DriverState → DriverState
  | [], st => st
  | (b, w) :: rest, st =>
    processRun block_size source_rate rest (processStep block_size source_rate b w st)

/-- The driver starts with `total_elapsed = 0` and `processing_time = 0`
(src/dsp.rs lines 106-107); `c0` is whatever the shared CPU-usage cell held
before the loop started. -/
def processInit (c0 : ℚ) : DriverState := ⟨0, 0, c0⟩

/-- Truncation of a rational toward zero, the semantics of Rust's `as i16`
cast applied to an in-range `f32` value: `Int.tdiv` is T-division. -/
def ratTrunc (q : ℚ) : ℤ := Int.tdiv q.num (q.den : ℤ)

/-- Rust `f32::clamp(self, min, max)` for `min ≤ max`: `min` if below, `max`
if above, the value otherwise. -/
def clampQ (x lo hi : ℚ) : ℚ := max lo (min x hi)

/-- One sample of `GainControlProcessor::process`
(src/dsp_modules/gain_control/mod.rs line 17):
`(*sample as f32 * gain).clamp(i16::MIN as f32, i16::MAX as f32) as i16`,
with `f32` arithmetic idealised over `ℚ`. -/
def gainSample (gain : ℚ) (s : ℤ) : ℤ :=
  ratTrunc (clampQ ((s : ℚ) * gain) (-32768) 32767)

/-- `GainControlProcessor::process` (src/dsp_modules/gain_control/mod.rs
lines 15-20): replace every sample of the buffer in place. -/
def gainProcess (gain : ℚ) (buffer : List ℤ) : List ℤ :=
  buffer.map (gainSample gain)

/-- Gain extraction in the closure installed by `GainControlModule::initialize`
(src/dsp_modules/gain_control/mod.rs line 50):
`if let ParamValue::Number(v) = state.get(0).unwrap_or(&ParamValue::Number(1.0)) { *v } else { 1.0 }`. -/
def gainFromParams (params : List ParamValue) : ℚ :=
  match params.getD 0 (ParamValue.Number 1) with
  | ParamValue.Number v => v
  | ParamValue.Boolean _ => 1

/-- The `process_fn` installed by `GainControlModule::initialize`
(src/dsp_modules/gain_control/mod.rs lines 49-52). -/
def gainControlProcessFn (params : List ParamValue) (buffer : List ℤ) : List ℤ :=
  gainProcess (gainFromParams params) buffer

/-! Auxiliary lemmas about `chunksOf`. -/

lemma chunksOf_nil (bs : ℕ) : chunksOf bs [] = [] := by
  rw [chunksOf]; simp

lemma chunksOf_cons {bs : ℕ} {l : List ℤ} (hbs : bs ≠ 0) (hl : l ≠ []) :
    chunksOf bs l = l.take bs :: chunksOf bs (l.drop bs) := by
  rw [chunksOf]
  simp [hbs, hl]

lemma chunksOf_zero (l : List ℤ) : chunksOf 0 l = [] := by
  rw [chunksOf]; simp

lemma chunksOf_flatten {bs : ℕ} (hbs : 0 < bs) (l : List ℤ) :
    (chunksOf bs l).flatten = l := by
  have aux : ∀ n (l : List ℤ), l.length ≤ n → (chunksOf bs l).flatten = l := by
    intro n
    induction n with
    | zero =>
      intro l hl
      have h0 : l = [] := List.eq_nil_of_length_eq_zero (Nat.le_zero.mp hl)
      simp [h0, chunksOf_nil]
    | succ n ih =>
      intro l hl
      by_cases h0 : l = []
      · simp [h0, chunksOf_nil]
      · rw [chunksOf_cons hbs.ne' h0]
        have hlen : (l.drop bs).length ≤ n := by
          have h1 : 0 < l.length := List.length_pos.mpr h0
          simp only [List.length_drop]
          omega
        simp only [List.flatten_cons, ih (l.drop bs) hlen]
        exact List.take_append_drop bs l
  exact aux l.length l le_rfl

lemma chunksOf_length {bs : ℕ} (hbs : 0 < bs) (l : List ℤ) :
    (chunksOf bs l).length = (l.length + bs - 1) / bs := by
  have aux : ∀ n (l : List ℤ), l.length ≤ n →
      (chunksOf bs l).length = (l.length + bs - 1) / bs := by
    intro n
    induction n with
    | zero =>
      intro l hl
      have h0 : l = [] := List.eq_nil_of_length_eq_zero (Nat.le_zero.mp hl)
      subst h0
      simp [chunksOf_nil, Nat.div_eq_of_lt, hbs, Nat.sub_lt hbs]
    | succ n ih =>
      intro l hl
      by_cases h0 : l = []
      · subst h0
        simp [chunksOf_nil, Nat.div_eq_of_lt, hbs, Nat.sub_lt hbs]
      · rw [chunksOf_cons hbs.ne' h0]
        have h1 : 0 < l.length := List.length_pos.mpr h0
        have hlen : (l.drop bs).length ≤ n := by
          simp only [List.length_drop]; omega
        rw [List.length_cons, ih (l.drop bs) hlen, List.length_drop]
        rcases Nat.lt_or_ge l.length bs with hc | hc
        · have e1 : l.length - bs = 0 := by omega
          rw [e1]
          have e2 : (0 + bs - 1) / bs = 0 := Nat.div_eq_of_lt (by omega)
          have e3 : (l.length + bs - 1) / bs = 1 :=
            Nat.div_eq_of_lt_le (by omega) (by omega)
          rw [e2, e3]
        · have e1 : l.length - bs + bs - 1 = l.length - 1 := by omega
          have e2 : l.length + bs - 1 = (l.length - 1) + bs := by omega
          rw [e1, e2, Nat.add_div_right _ hbs]
  exact aux l.length l le_rfl

lemma chunksOf_getLast {bs : ℕ} (hbs : 0 < bs) (l : List ℤ) (hl : l ≠ []) :
    ∃ c, (chunksOf bs l).getLast? = some c ∧
      c.length = if l.length % bs = 0 then bs else l.length % bs := by
  have aux : ∀ n (l : List ℤ), l.length ≤ n → l ≠ [] →
      ∃ c, (chunksOf bs l).getLast? = some c ∧
        c.length = if l.length % bs = 0 then bs else l.length % bs := by
    intro n
    induction n with
    | zero =>
      intro l hl hne
      exact absurd (List.eq_nil_of_length_eq_zero (Nat.le_zero.mp hl)) hne
    | succ n ih =>
      intro l hl hne
      have h1 : 0 < l.length := List.length_pos.mpr hne
      rw [chunksOf_cons hbs.ne' hne]
      by_cases hd : l.drop bs = []
      · have hle : l.length ≤ bs := by
          have h2 := List.length_drop bs l
          rw [hd] at h2
          simp at h2
          omega
        refine ⟨l.take bs, ?_, ?_⟩
        · rw [hd, chunksOf_nil]
          rfl
        · rw [List.length_take]
          rcases Nat.lt_or_ge l.length bs with hc | hc
          · have e1 : l.length % bs = l.length := Nat.mod_eq_of_lt hc
            rw [e1, if_neg (by omega), Nat.min_eq_right (by omega)]
          · have e0 : l.length = bs := by omega
            rw [e0]
            simp
      · have hlen : (l.drop bs).length ≤ n := by
          simp only [List.length_drop]; omega
        obtain ⟨c, hc1, hc2⟩ := ih (l.drop bs) hlen hd
        refine ⟨c, ?_, ?_⟩
        · rw [chunksOf_cons hbs.ne' hd] at hc1 ⊢
          rw [List.getLast?_cons_cons]
          exact hc1
        · have hgt : bs ≤ l.length := by
            by_contra hcon
            push_neg at hcon
            exact hd (List.drop_eq_nil_of_le (by omega))
          have e1 : (l.drop bs).length = l.length - bs := List.length_drop bs l
          have e2 : (l.length - bs) % bs = l.length % bs := by
            conv_rhs => rw [show l.length = (l.length - bs) + bs by omega]
            rw [Nat.add_mod_right]
          rw [e1, e2] at hc2
          exact hc2
  exact aux l.length l le_rfl hl

lemma flatten_map_length {f : List ℤ → List ℤ} (hf : ∀ c, (f c).length = c.length)
    (L : List (List ℤ)) : ((L.map f).flatten).length = L.flatten.length := by
  simp only [List.length_flatten, List.map_map]
  congr 1
  apply List.map_congr_left
  intro c _
  exact hf c

/-! Step lemmas for `next`. -/

lemma next_playing_false (f : List ℤ → List ℤ) (byp : Bool) (s : BPState) :
    next f false byp s = (none, s, []) := rfl

lemma emitCurrent_pos (s : BPState) (log : List (List ℤ))
    (h : s.block_pos < s.block.length) :
    emitCurrent s log =
      (some (s.block.get ⟨s.block_pos, h⟩),
       { s with block_pos := s.block_pos + 1 }, log) := by
  simp only [emitCurrent, dif_pos h]

lemma next_drain (f : List ℤ → List ℤ) (byp : Bool) (s : BPState)
    (h : s.block_pos < s.block.length) :
    next f true byp s =
      (some (s.block.get ⟨s.block_pos, h⟩),
       { s with block_pos := s.block_pos + 1 }, []) := by
  simp only [next, ge_iff_le, if_true]
  rw [if_neg (by omega)]
  exact emitCurrent_pos s [] h

lemma next_refill (f : List ℤ → List ℤ) (byp : Bool) (input block : List ℤ)
    (sp bs : ℕ) (hne : input ≠ []) (hbs : bs ≠ 0) :
    next f true byp ⟨input, block, block.length, sp, bs⟩ =
      emitCurrent
        (if byp then ⟨input.drop bs, input.take bs, 0, sp, bs⟩
         else ⟨input.drop bs, f (input.take bs), 0,
               sp + (f (input.take bs)).length, bs⟩)
        (if byp then [] else [input.take bs]) := by
  have htake : (input.take bs).isEmpty = false := by
    rw [List.isEmpty_eq_false_iff_exists_mem]
    obtain ⟨a, t, rfl⟩ : ∃ a t, input = a :: t := by
      cases input with
      | nil => exact absurd rfl hne
      | cons a t => exact ⟨a, t, rfl⟩
    cases bs with
    | zero => exact absurd rfl hbs
    | succ k => exact ⟨a, by simp⟩
  simp only [next, ge_iff_le, le_refl, if_true, htake, Bool.false_eq_true,
    if_false, process_buffer]
  cases byp <;> simp

lemma next_end_of_stream (f : List ℤ → List ℤ) (playing byp : Bool) (s : BPState)
    (hin : s.input = []) (hpos : s.block.length ≤ s.block_pos) :
    next f playing byp s = (none, s, []) := by
  cases playing with
  | false => rfl
  | true =>
    simp only [next, ge_iff_le, if_true]
    rw [if_pos hpos]
    simp only [hin, List.take_nil, List.isEmpty_nil, List.drop_nil, if_true]
    cases s
    simp_all

/-! Run lemmas: draining the current block, then the whole stream. -/

lemma run_drain (f : List ℤ → List ℤ) (byp : Bool) :
    ∀ (n : ℕ) (s : BPState) (fuel : ℕ),
      s.block.length - s.block_pos = n → s.block_pos ≤ s.block.length →
      run f true byp (n + fuel) s =
        ((s.block.drop s.block_pos) ++
           (run f true byp fuel { s with block_pos := s.block.length }).1,
         (run f true byp fuel { s with block_pos := s.block.length }).2) := by
  intro n
  induction n with
  | zero =>
    intro s fuel h1 h2
    have hp : s.block_pos = s.block.length := by omega
    have hs : { s with block_pos := s.block.length } = s := by
      cases s; simp_all
    rw [hs, Nat.zero_add, List.drop_eq_nil_of_le (by omega), List.nil_append]
  | succ n ih =>
    intro s fuel h1 h2
    have hlt : s.block_pos < s.block.length := by omega
    rw [show n + 1 + fuel = (n + fuel) + 1 by omega]
    rw [run, next_drain f byp s hlt]
    dsimp only
    have ihs := ih { s with block_pos := s.block_pos + 1 } fuel (by simp; omega)
      (by simp; omega)
    simp only at ihs
    rw [ihs]
    simp only [Prod.mk.injEq, List.nil_append, and_true, eq_self_iff_true]
    rw [List.drop_eq_getElem_cons hlt, List.cons_append]
    rfl

lemma run_exhausted (f : List ℤ → List ℤ) (hf : ∀ l, (f l).length = l.length)
    (byp : Bool) (bs : ℕ) :
    ∀ (input block : List ℤ) (sp : ℕ),
      run f true byp (input.length + 1) ⟨input, block, block.length, sp, bs⟩ =
        (((chunksOf bs input).map (fun c => if byp then c else f c)).flatten,
         if byp then [] else chunksOf bs input) := by
  have aux : ∀ (n : ℕ) (input : List ℤ), input.length ≤ n →
      ∀ (block : List ℤ) (sp : ℕ),
      run f true byp (input.length + 1) ⟨input, block, block.length, sp, bs⟩ =
        (((chunksOf bs input).map (fun c => if byp then c else f c)).flatten,
         if byp then [] else chunksOf bs input) := by
    intro n
    induction n with
    | zero =>
      intro input hle block sp
      have h0 : input = [] := List.eq_nil_of_length_eq_zero (Nat.le_zero.mp hle)
      subst h0
      rw [run, next_end_of_stream f true byp _ rfl le_rfl]
      simp [chunksOf_nil]
    | succ n ih =>
      intro input hle block sp
      by_cases h0 : input = []
      · subst h0
        rw [run, next_end_of_stream f true byp _ rfl le_rfl]
        simp [chunksOf_nil]
      by_cases hbs0 : bs = 0
      · subst hbs0
        have h1 : input.length ≠ 0 := fun hc =>
          h0 (List.eq_nil_of_length_eq_zero hc)
        obtain ⟨m, hm⟩ : ∃ m, input.length = m + 1 := ⟨input.length - 1, by omega⟩
        rw [hm, run]
        have hnext : next f true byp ⟨input, block, block.length, sp, 0⟩ =
            (none, ⟨input, block, block.length, sp, 0⟩, []) := by
          simp only [next, ge_iff_le, le_refl, if_true, List.take_zero,
            List.isEmpty_nil, List.drop_zero, if_true]
        rw [hnext]
        simp [chunksOf_zero]
      -- main case: input ≠ [], bs ≠ 0
      · have hL : 0 < input.length := List.length_pos.mpr h0
        set c := input.take bs with hc
        have hclen : c.length = min bs input.length := List.length_take bs input
        have hcpos : 0 < c.length := by rw [hclen]; omega
        obtain ⟨m, hm⟩ : ∃ m, input.length = m + 1 := ⟨input.length - 1, by omega⟩
        rw [hm, run, next_refill f byp input block sp bs h0 hbs0]
        set block2 : List ℤ := if byp then c else f c with hb2
        have hb2len : block2.length = c.length := by
          cases byp <;> simp [hb2, hf]
        set sp2 : ℕ := if byp then sp else sp + (f c).length with hsp2
        have hstate : (if byp then (⟨input.drop bs, c, 0, sp, bs⟩ : BPState)
            else ⟨input.drop bs, f c, 0, sp + (f c).length, bs⟩) =
            ⟨input.drop bs, block2, 0, sp2, bs⟩ := by
          cases byp <;> simp [hb2, hsp2]
        rw [hstate]
        have hb2pos : 0 < block2.length := by rw [hb2len]; exact hcpos
        rw [emitCurrent_pos _ _ (by simpa using hb2pos)]
        dsimp only
        -- remaining fuel m + 1 splits into draining block2 and recursing on the rest
        have hrest : (input.drop bs).length = input.length - bs :=
          List.length_drop bs input
        have hmfuel : m + 1 = (block2.length - 1) + ((input.drop bs).length + 1) := by
          rw [hb2len, hclen, hrest]; omega
        rw [hmfuel]
        rw [run_drain f byp (block2.length - 1) ⟨input.drop bs, block2, 1, sp2, bs⟩
          ((input.drop bs).length + 1) (by simp) (by simp; omega)]
        dsimp only
        have ihrec := ih (input.drop bs) (by rw [hrest]; omega) block2 sp2
        rw [ihrec]
        have hchunk : chunksOf bs input = c :: chunksOf bs (input.drop bs) :=
          chunksOf_cons hbs0 h0
        have hblock2 : ∀ h : 0 < block2.length,
            block2.get ⟨0, h⟩ :: block2.drop 1 = block2 := by
          intro h
          rw [List.get_eq_getElem]
          exact (List.drop_eq_getElem_cons h).symm
        rw [hchunk]
        cases byp with
        | false =>
          simp only [if_false, Bool.false_eq_true, List.map_cons,
            List.flatten_cons, Prod.mk.injEq]
          refine ⟨?_, by simp⟩
          rw [← List.cons_append, hblock2]
          simp [hb2]
        | true =>
          simp only [if_true, List.map_cons, List.flatten_cons, Prod.mk.injEq]
          refine ⟨?_, by simp⟩
          rw [← List.cons_append, hblock2]
          simp [hb2]
  intro input block sp
  exact aux input.length input le_rfl block sp

/-! Further helper lemmas. -/

lemma validBlockSizes_pos {bs : ℕ} (h : bs ∈ validBlockSizes) : 0 < bs := by
  simp only [validBlockSizes, List.mem_cons, List.not_mem_nil, or_false] at h
  rcases h with rfl | rfl | rfl | rfl | rfl <;> norm_num

lemma emitCurrent_block (st : BPState) (log : List (List ℤ)) :
    (emitCurrent st log).2.1.block = st.block := by
  unfold emitCurrent
  split <;> rfl

lemma next_bypass_eq (f g : List ℤ → List ℤ) (p : Bool) (s : BPState) :
    next f p true s = next g p true s := by
  cases p <;> rfl

lemma run_bypass_eq (f g : List ℤ → List ℤ) :
    ∀ (fuel : ℕ) (s : BPState),
      run f true true fuel s = run g true true fuel s := by
  intro fuel
  induction fuel with
  | zero => intro s; rfl
  | succ n ih =>
    intro s
    rw [run, run, next_bypass_eq f g]
    rcases hn : next g true true s with ⟨o, s', log⟩
    cases o with
    | none => rfl
    | some x => simp only [ih s']

lemma gainSample_one (s : ℤ) (h1 : -32768 ≤ s) (h2 : s ≤ 32767) :
    gainSample 1 s = s := by
  unfold gainSample clampQ ratTrunc
  rw [mul_one]
  have hmin : min ((s : ℤ) : ℚ) 32767 = ((s : ℤ) : ℚ) :=
    min_eq_left (by exact_mod_cast h2)
  have hmax : max (-32768) ((s : ℤ) : ℚ) = ((s : ℤ) : ℚ) :=
    max_eq_right (by exact_mod_cast h1)
  rw [hmin, hmax]
  rw [Rat.num_intCast, Rat.den_intCast]
  simp

lemma gainProcess_one (buffer : List ℤ)
    (hr : ∀ s ∈ buffer, -32768 ≤ s ∧ s ≤ 32767) :
    gainProcess 1 buffer = buffer := by
  unfold gainProcess
  conv_rhs => rw [← List.map_id buffer]
  apply List.map_congr_left
  intro s hs
  exact gainSample_one s (hr s hs).1 (hr s hs).2

lemma chunksOf_len_10000_4096 (l : List ℤ) (hl : l.length = 10000) :
    (chunksOf 4096 l).map List.length = [4096, 4096, 1808] := by
  have h1 : l ≠ [] := by
    intro h; rw [h] at hl; simp at hl
  rw [chunksOf_cons (by norm_num) h1]
  have hd1 : (l.drop 4096).length = 5904 := by
    rw [List.length_drop, hl]
  have h2 : l.drop 4096 ≠ [] := by
    intro h; rw [h] at hd1; simp at hd1
  rw [chunksOf_cons (by norm_num) h2]
  have hd2 : ((l.drop 4096).drop 4096).length = 1808 := by
    rw [List.length_drop, hd1]
  have h3 : (l.drop 4096).drop 4096 ≠ [] := by
    intro h; rw [h] at hd2; simp at hd2
  rw [chunksOf_cons (by norm_num) h3]
  have hd3 : (((l.drop 4096).drop 4096).drop 4096).length = 0 := by
    rw [List.length_drop, hd2]
  rw [List.eq_nil_of_length_eq_zero hd3, chunksOf_nil]
  simp only [List.map_cons, List.map_nil, List.length_take, hl, hd1, hd2]
  norm_num

/-! Claim theorems. -/

/-- C1: for every block size in the enumerated set and every upstream source
of length `L`, with `is_playing` true and `bypass` false throughout, the
Block Streamer yields exactly `L` samples — the in-order concatenation of the
transformed consecutive chunks — in `ceil(L / block_size)` transformation
invocations, invocation `i` receiving the `i`-th consecutive chunk of the
source; the last invocation receives `L mod block_size` samples (or
`block_size` when `L` is divisible); in particular `L = 10000`,
`block_size = 4096` gives invocations of sizes `[4096, 4096, 1808]`. -/
theorem blockStreamer_partitions_source
    (bs : ℕ) (hbs : bs ∈ validBlockSizes)
    (src : List ℤ) (f : List ℤ → List ℤ)
    (hf : ∀ l, (f l).length = l.length) :
    (run f true false (src.length + 1) (bpNew src bs)).1 =
        ((chunksOf bs src).map f).flatten ∧
    (run f true false (src.length + 1) (bpNew src bs)).1.length = src.length ∧
    (run f true false (src.length + 1) (bpNew src bs)).2 = chunksOf bs src ∧
    (chunksOf bs src).length = (src.length + bs - 1) / bs ∧
    (src ≠ [] → ∃ c, (chunksOf bs src).getLast? = some c ∧
      c.length = if src.length % bs = 0 then bs else src.length % bs) ∧
    (src.length = 10000 → bs = 4096 →
      (chunksOf bs src).map List.length = [4096, 4096, 1808]) := by
  have hpos : 0 < bs := validBlockSizes_pos hbs
  have hrun := run_exhausted f hf false bs src [] 0
  simp only [List.length_nil, Bool.false_eq_true, if_false] at hrun
  have hinit : (bpNew src bs) = (⟨src, [], 0, 0, bs⟩ : BPState) := rfl
  rw [hinit]
  rw [hrun]
  refine ⟨rfl, ?_, rfl, chunksOf_length hpos src, chunksOf_getLast hpos src, ?_⟩
  · rw [flatten_map_length hf, chunksOf_flatten hpos]
  · intro hL hbs4096
    subst hbs4096
    exact chunksOf_len_10000_4096 src hL

/-- C1 witness: the theorem applied at `block_size = 1024`,
`src = [7, 8, 9]`, `f = id`. -/
theorem blockStreamer_partitions_source_witness :
    (1024 ∈ validBlockSizes) ∧
    ((run (fun l => l) true false (([7, 8, 9] : List ℤ).length + 1)
        (bpNew [7, 8, 9] 1024)).1 =
      ((chunksOf 1024 [7, 8, 9]).map (fun l => l)).flatten ∧
    (run (fun l => l) true false (([7, 8, 9] : List ℤ).length + 1)
        (bpNew [7, 8, 9] 1024)).1.length = ([7, 8, 9] : List ℤ).length ∧
    (run (fun l => l) true false (([7, 8, 9] : List ℤ).length + 1)
        (bpNew [7, 8, 9] 1024)).2 = chunksOf 1024 [7, 8, 9] ∧
    (chunksOf 1024 ([7, 8, 9] : List ℤ)).length =
      (([7, 8, 9] : List ℤ).length + 1024 - 1) / 1024 ∧
    (([7, 8, 9] : List ℤ) ≠ [] →
      ∃ c, (chunksOf 1024 ([7, 8, 9] : List ℤ)).getLast? = some c ∧
        c.length = if ([7, 8, 9] : List ℤ).length % 1024 = 0 then 1024
          else ([7, 8, 9] : List ℤ).length % 1024) ∧
    (([7, 8, 9] : List ℤ).length = 10000 → 1024 = 4096 →
      (chunksOf 1024 ([7, 8, 9] : List ℤ)).map List.length =
        [4096, 4096, 1808])) :=
  ⟨by decide,
   blockStreamer_partitions_source 1024 (by decide) [7, 8, 9]
     (fun l => l) (fun l => rfl)⟩

/-- C2: with `bypass` true for the entire session and `is_playing` true, the
streamed sample sequence equals the upstream source exactly, for every
installed transformation, and no transformation invocation occurs. -/
theorem streamer_bypass_identity
    (bs : ℕ) (hbs : bs ∈ validBlockSizes)
    (src : List ℤ) (f : List ℤ → List ℤ) :
    (run f true true (src.length + 1) (bpNew src bs)).1 = src ∧
    (run f true true (src.length + 1) (bpNew src bs)).2 = [] := by
  have hpos : 0 < bs := validBlockSizes_pos hbs
  rw [run_bypass_eq f (fun l => l)]
  have hrun := run_exhausted (fun l => l) (fun _ => rfl) true bs src [] 0
  simp only [List.length_nil, if_true] at hrun
  have hinit : (bpNew src bs) = (⟨src, [], 0, 0, bs⟩ : BPState) := rfl
  rw [hinit, hrun]
  refine ⟨?_, rfl⟩
  have hmapid : (chunksOf bs src).map (fun c => c) = chunksOf bs src :=
    List.map_id (chunksOf bs src)
  rw [hmapid, chunksOf_flatten hpos]

/-- C2 witness: the theorem applied at `block_size = 2048`,
`src = [1, -2, 3]`, `f` a non-identity transformation. -/
theorem streamer_bypass_identity_witness :
    (2048 ∈ validBlockSizes) ∧
    ((run (fun l => l.map (fun x => x * 100)) true true
        (([1, -2, 3] : List ℤ).length + 1) (bpNew [1, -2, 3] 2048)).1 =
      [1, -2, 3] ∧
    (run (fun l => l.map (fun x => x * 100)) true true
        (([1, -2, 3] : List ℤ).length + 1) (bpNew [1, -2, 3] 2048)).2 = []) :=
  ⟨by decide,
   streamer_bypass_identity 2048 (by decide) [1, -2, 3]
     (fun l => l.map (fun x => x * 100))⟩

/-- C3: once `is_playing` is false and stays false, every call to `next`
yields `None`, leaves the state untouched, and a whole consumer run under
`is_playing = false` yields no samples at all, regardless of how many
samples remain in the in-flight block or upstream. -/
theorem stop_yields_none
    (f : List ℤ → List ℤ) (byp : Bool) (s : BPState) (fuel : ℕ) :
    next f false byp s = (none, s, []) ∧
    run f false byp fuel s = ([], []) := by
  refine ⟨next_playing_false f byp s, ?_⟩
  cases fuel with
  | zero => rfl
  | succ n => rw [run, next_playing_false f byp s]

/-- C4 counterexample: the claim that the `is_playing`-false transition is
permanent for the streamer is false. With source `[3, 4]` and block size 2, a
`next` call under `is_playing = false` yields nothing and leaves the state
unchanged, and a subsequent call with `is_playing = true` again yields a
sample. -/
theorem drained_not_permanent_counterexample :
    next (fun l => l) false false (bpNew [3, 4] 2) = (none, bpNew [3, 4] 2, []) ∧
    (next (fun l => l) true false (bpNew [3, 4] 2)).1 = some 3 := by
  constructor
  · rfl
  · rfl

/-- C4 (amended): a `next` call while `is_playing` is false yields nothing and
leaves the streamer state unchanged — so the streamer yields nothing for as
long as the flag stays false, but it records no drained latch, and yielding
resumes if `is_playing` is set true again. The genuinely terminal state is
end of stream: with the upstream exhausted and the current block fully
consumed, `next` yields nothing and changes nothing, for either value of
`is_playing`. -/
theorem stop_not_latched_eos_terminal
    (f : List ℤ → List ℤ) (playing byp : Bool) (s t : BPState)
    (hin : t.input = []) (hpos : t.block.length ≤ t.block_pos) :
    next f false byp s = (none, s, []) ∧
    next f playing byp t = (none, t, []) :=
  ⟨next_playing_false f byp s, next_end_of_stream f playing byp t hin hpos⟩

/-- C4 witness: the amended theorem applied at concrete states. -/
theorem stop_not_latched_eos_terminal_witness :
    next (fun l => l) false true (bpNew [5] 4) = (none, bpNew [5] 4, []) ∧
    next (fun l => l) true true ⟨[], [9], 1, 1, 4⟩ = (none, ⟨[], [9], 1, 1, 4⟩, []) :=
  stop_not_latched_eos_terminal (fun l => l) true true (bpNew [5] 4)
    ⟨[], [9], 1, 1, 4⟩ rfl (by norm_num)

/-- C5: the playback driver's nominal block duration is
`block_size / 48000` seconds, computed from the hardcoded 48000 Hz rate;
`total_elapsed` accumulates exactly one nominal block duration per loop
iteration; and the whole driver run is independent of the sample rate the
decoded source actually reports. -/
theorem pacing_uses_hardcoded_48000
    (block_size : ℕ) (source_rate : ℚ) (iters : List (Bool × ℚ))
    (st : DriverState) :
    blockDuration block_size = (block_size : ℚ) / 48000 ∧
    (processRun block_size source_rate iters st).total_elapsed =
      st.total_elapsed + iters.length * blockDuration block_size ∧
    (∀ r2 : ℚ, processRun block_size source_rate iters st =
      processRun block_size r2 iters st) := by
  refine ⟨rfl, ?_, ?_⟩
  · induction iters generalizing st with
    | nil => simp [processRun]
    | cons p rest ih =>
      obtain ⟨b, w⟩ := p
      rw [processRun, ih]
      simp only [processStep, List.length_cons]
      push_cast
      ring
  · intro r2
    induction iters generalizing st with
    | nil => rfl
    | cons p rest ih =>
      obtain ⟨b, w⟩ := p
      rw [processRun, processRun, ih]
      rfl

/-- C6: on an iteration of the driver loop where the accumulated
`total_elapsed` is positive, the value published to the CPU-usage cell is
`(processing_time / total_elapsed) * 100`, and it is nonnegative (processing
times being accumulations of nonnegative wall-clock intervals). -/
theorem cpu_usage_formula
    (block_size : ℕ) (source_rate : ℚ) (byp : Bool) (work : ℚ)
    (st : DriverState) (hpt : 0 ≤ st.processing_time) (hw : 0 ≤ work)
    (hte : 0 < (processStep block_size source_rate byp work st).total_elapsed) :
    (processStep block_size source_rate byp work st).cpu_usage =
      ((processStep block_size source_rate byp work st).processing_time /
        (processStep block_size source_rate byp work st).total_elapsed) * 100 ∧
    0 ≤ (processStep block_size source_rate byp work st).cpu_usage := by
  have hpt2 : 0 ≤ st.processing_time + (if byp then 0 else work) := by
    cases byp
    · simpa using add_nonneg hpt hw
    · simpa using hpt
  simp only [processStep] at hte ⊢
  rw [if_pos hte]
  refine ⟨rfl, ?_⟩
  exact mul_nonneg (div_nonneg hpt2 hte.le) (by norm_num)

/-- C6 witness: the theorem applied at `block_size = 4096`, source rate
44100, `bypass = false`, `work = 1`, starting from the initial driver
state. -/
theorem cpu_usage_formula_witness :
    ((0 : ℚ) ≤ (processInit 0).processing_time ∧ (0 : ℚ) ≤ 1 ∧
      0 < (processStep 4096 44100 false 1 (processInit 0)).total_elapsed) ∧
    ((processStep 4096 44100 false 1 (processInit 0)).cpu_usage =
      ((processStep 4096 44100 false 1 (processInit 0)).processing_time /
        (processStep 4096 44100 false 1 (processInit 0)).total_elapsed) * 100 ∧
    0 ≤ (processStep 4096 44100 false 1 (processInit 0)).cpu_usage) :=
  ⟨⟨le_refl 0, by norm_num,
    by norm_num [processStep, processInit, blockDuration, dspSampleRate]⟩,
   cpu_usage_formula 4096 44100 false 1 (processInit 0) (le_refl 0)
     (by norm_num)
     (by norm_num [processStep, processInit, blockDuration, dspSampleRate])⟩

/-- C7: if `bypass` is true on every iteration of a session, no processing
time accrues (`processing_time` stays 0), and after any nonempty run the
published CPU usage is 0. -/
theorem bypass_session_cpu_zero
    (block_size : ℕ) (hbs : block_size ∈ validBlockSizes)
    (source_rate : ℚ) (iters : List (Bool × ℚ))
    (hb : ∀ p ∈ iters, p.1 = true) (hne : iters ≠ []) (c0 : ℚ) :
    (processRun block_size source_rate iters (processInit c0)).processing_time
      = 0 ∧
    (processRun block_size source_rate iters (processInit c0)).cpu_usage
      = 0 := by
  have hbd : 0 < blockDuration block_size := by
    apply div_pos
    · exact_mod_cast validBlockSizes_pos hbs
    · norm_num [dspSampleRate]
  have aux : ∀ (iters : List (Bool × ℚ)) (st : DriverState),
      (∀ p ∈ iters, p.1 = true) → st.processing_time = 0 →
      0 ≤ st.total_elapsed →
      (processRun block_size source_rate iters st).processing_time = 0 ∧
      (iters ≠ [] →
        (processRun block_size source_rate iters st).cpu_usage = 0 ∧
        0 < (processRun block_size source_rate iters st).total_elapsed) := by
    intro iters
    induction iters with
    | nil =>
      intro st _ hpt _
      exact ⟨hpt, fun hcon => absurd rfl hcon⟩
    | cons p rest ih =>
      intro st hb1 hpt hte
      obtain ⟨b, w⟩ := p
      have hbtrue : b = true := hb1 (b, w) (List.mem_cons_self _ _)
      subst hbtrue
      rw [processRun]
      have hstep : processStep block_size source_rate true w st =
          ⟨st.total_elapsed + blockDuration block_size, st.processing_time,
           if 0 < st.total_elapsed + blockDuration block_size then
             (st.processing_time /
               (st.total_elapsed + blockDuration block_size)) * 100
           else st.cpu_usage⟩ := by
        simp [processStep]
      have hte2 : 0 < st.total_elapsed + blockDuration block_size := by
        linarith
      rw [hstep, hpt]
      have hcu : (if 0 < st.total_elapsed + blockDuration block_size then
          ((0 : ℚ) / (st.total_elapsed + blockDuration block_size)) * 100
          else st.cpu_usage) = 0 := by
        rw [if_pos hte2]
        simp
      rw [hcu]
      have hrest := ih ⟨st.total_elapsed + blockDuration block_size, 0, 0⟩
        (fun q hq => hb1 q (List.mem_cons_of_mem _ hq)) rfl hte2.le
      refine ⟨hrest.1, fun _ => ?_⟩
      by_cases hr0 : rest = []
      · subst hr0
        exact ⟨rfl, by simpa using hte2⟩
      · exact hrest.2 hr0
  obtain ⟨h1, h2⟩ := aux iters (processInit c0) hb rfl le_rfl
  exact ⟨h1, (h2 hne).1⟩

/-- C7 witness: the theorem applied at `block_size = 4096`, a two-iteration
all-bypass schedule, initial published value 5. -/
theorem bypass_session_cpu_zero_witness :
    (4096 ∈ validBlockSizes ∧
      (∀ p ∈ [((true : Bool), (3 : ℚ)), (true, 7)], p.1 = true) ∧
      ([((true : Bool), (3 : ℚ)), (true, 7)] ≠ [])) ∧
    ((processRun 4096 44100 [(true, 3), (true, 7)]
        (processInit 5)).processing_time = 0 ∧
    (processRun 4096 44100 [(true, 3), (true, 7)]
        (processInit 5)).cpu_usage = 0) :=
  ⟨⟨by decide, by simp, by simp⟩,
   bypass_session_cpu_zero 4096 (by decide) 44100 [(true, 3), (true, 7)]
     (by simp) (by simp) 5⟩

/-- C8: the gain transformation replaces each sample `s` with
`clamp(s * g, INT16_MIN, INT16_MAX)` (cast back to a 16-bit integer by
truncation toward zero) elementwise, never changes the block length, and for
`g = 1.0` is the identity on every block of in-range samples. -/
theorem gain_clamp_formula (g : ℚ) (buf : List ℤ) :
    (gainProcess g buf).length = buf.length ∧
    (∀ (i : ℕ) (h2 : i < (gainProcess g buf).length) (h : i < buf.length),
      (gainProcess g buf).get ⟨i, h2⟩ =
        ratTrunc (clampQ (((buf.get ⟨i, h⟩ : ℤ) : ℚ) * g) (-32768) 32767)) ∧
    (g = 1 → (∀ s ∈ buf, -32768 ≤ s ∧ s ≤ 32767) → gainProcess g buf = buf) := by
  refine ⟨by simp [gainProcess], ?_, ?_⟩
  · intro i h2 h
    simp only [gainProcess, List.get_eq_getElem, List.getElem_map]
    rfl
  · intro hg hr
    subst hg
    exact gainProcess_one buf hr

/-- C8 witness: the theorem applied at `g = 1`, `buf = [5, -3]`. -/
theorem gain_clamp_formula_witness :
    ((1 : ℚ) = 1 ∧ (∀ s ∈ ([5, -3] : List ℤ), -32768 ≤ s ∧ s ≤ 32767)) ∧
    gainProcess 1 [5, -3] = [5, -3] :=
  ⟨⟨rfl, by decide⟩, (gain_clamp_formula 1 [5, -3]).2.2 rfl (by decide)⟩

/-- C9: the `bypass` flag is consulted only at the moment a freshly filled
block is processed. While a block is draining (`block_pos` strictly inside
the block), `next` behaves identically for any two values of `bypass`, never
alters the already-computed block, and (while playing) yields exactly the
stored sample at the current position; and at a block-fill step the new
block's contents are decided by the `bypass` value read at that moment. -/
theorem bypass_consulted_at_fill_only
    (f : List ℤ → List ℤ) (playing : Bool) (s : BPState)
    (h : s.block_pos < s.block.length) (b1 b2 byp : Bool)
    (input block : List ℤ) (sp bs : ℕ) (hne : input ≠ []) (hbs : bs ≠ 0) :
    next f playing b1 s = next f playing b2 s ∧
    (next f playing b1 s).2.1.block = s.block ∧
    (playing = true →
      (next f playing b1 s).1 = some (s.block.get ⟨s.block_pos, h⟩)) ∧
    (next f true byp ⟨input, block, block.length, sp, bs⟩).2.1.block =
      (if byp then input.take bs else f (input.take bs)) := by
  have hfill : (next f true byp ⟨input, block, block.length, sp, bs⟩).2.1.block =
      (if byp then input.take bs else f (input.take bs)) := by
    rw [next_refill f byp input block sp bs hne hbs]
    cases byp <;> simp [emitCurrent_block]
  cases playing with
  | false => exact ⟨rfl, rfl, by simp, hfill⟩
  | true =>
    rw [next_drain f b1 s h, next_drain f b2 s h]
    exact ⟨rfl, rfl, fun _ => rfl, hfill⟩

/-- C9 witness: the theorem applied at a concrete draining state (block
`[4, 5]`, position 1) and a concrete fill step. -/
theorem bypass_consulted_at_fill_only_witness :
    ((1 : ℕ) < (([4, 5] : List ℤ)).length ∧ ([9] : List ℤ) ≠ [] ∧ (2 : ℕ) ≠ 0) ∧
    (next (fun l => l) true true ⟨[9], [4, 5], 1, 0, 2⟩ =
      next (fun l => l) true false ⟨[9], [4, 5], 1, 0, 2⟩ ∧
    (next (fun l => l) true true ⟨[9], [4, 5], 1, 0, 2⟩).2.1.block = [4, 5] ∧
    (true = true →
      (next (fun l => l) true true ⟨[9], [4, 5], 1, 0, 2⟩).1 = some 5) ∧
    (next (fun l => l) true false ⟨[9], ([] : List ℤ), ([] : List ℤ).length, 0, 2⟩).2.1.block =
      (if false then ([9] : List ℤ).take 2 else (fun l => l) (([9] : List ℤ).take 2))) :=
  ⟨⟨by norm_num, by simp, by norm_num⟩,
   bypass_consulted_at_fill_only (fun l => l) true ⟨[9], [4, 5], 1, 0, 2⟩
     (by norm_num) true false false [9] [] 0 2 (by simp) (by norm_num)⟩

/-- C10: for the gain module's installed transformation, an empty parameter
snapshot or one whose first entry is not a Number yields the default gain
1.0, and the block is left unchanged for in-range samples; the transformation
is a total function, so it cannot fail on a missing or mistyped first
parameter. -/
theorem gain_default_on_missing_param
    (params : List ParamValue) (buffer : List ℤ)
    (hp : params = [] ∨ ∃ b rest, params = ParamValue.Boolean b :: rest)
    (hr : ∀ s ∈ buffer, -32768 ≤ s ∧ s ≤ 32767) :
    gainFromParams params = 1 ∧ gainControlProcessFn params buffer = buffer := by
  have h1 : gainFromParams params = 1 := by
    rcases hp with rfl | ⟨b, rest, rfl⟩ <;> rfl
  refine ⟨h1, ?_⟩
  unfold gainControlProcessFn
  rw [h1]
  exact gainProcess_one buffer hr

/-- C10 witness: the theorem applied at `params = [Boolean true]`,
`buffer = [7, -9]`. -/
theorem gain_default_on_missing_param_witness :
    (([ParamValue.Boolean true] : List ParamValue) = [] ∨
      ∃ b rest, ([ParamValue.Boolean true] : List ParamValue) =
        ParamValue.Boolean b :: rest) ∧
    gainFromParams [ParamValue.Boolean true] = 1 ∧
    gainControlProcessFn [ParamValue.Boolean true] [7, -9] = [7, -9] :=
  ⟨Or.inr ⟨true, [], rfl⟩,
   gain_default_on_missing_param [ParamValue.Boolean true] [7, -9]
     (Or.inr ⟨true, [], rfl⟩) (by decide)⟩

end RustAudio
